import Mathlib

/-!
Shallow embedding of the weighted edit-distance core of the abydos
repository: the Editex distance (src/abydos/distance/editex.py) and the
typo distance (src/abydos/distance/typo.py), together with their
normalized-distance and similarity wrappers.

Modelling conventions:
* Python integers in the Editex DP matrix (numpy dtype int) become `Int`.
* Python floats in the typo DP become `Rat`; the two float-valued
  primitives that have no exact rational counterpart, `x ** 0.5` and
  `math.log`, are passed in as explicit function parameters `sqrtK` and
  `logK`, so every definition stays executable and every theorem about
  the euclidean or log metrics holds for every interpretation of those
  primitives (in particular for real square root and logarithm).
* Fallible Python code (tuple unpacking, dict lookup, raised ValueError,
  division by zero) is modelled with `Except DistErr`.
* The Unicode NFKD normalization step of Editex is modelled as the
  identity map: it is the identity on the ASCII inputs considered here,
  and the sharp-s expansion, which the source performs with an explicit
  `replace`, is modelled explicitly by `ssExpand`.
-/

set_option maxRecDepth 2000

namespace Abydos

/-- Errors surfaced by the typo and normalized-distance functions:
a cost tuple of the wrong arity, an unknown layout name, an unknown
metric name, a character found in no half of the layout, and division
by zero in the normalizers. -/
inductive DistErr where
  | costArity : DistErr
  | unknownLayout : DistErr
  | unknownMetric : DistErr
  | unsupportedChar : Char → DistErr
  | divisionByZero : DistErr
deriving DecidableEq, Repr

deriving instance DecidableEq for Except

/-- `isOk e` is true when the `Except` value carries a result. -/
def isOk {ε α : Type} : Except ε α → Bool
  | Except.ok _ => true
  | Except.error _ => false

/-- Executable minimum on the rationals (kernel-reducible, equal to
`min` by `min_def`). -/
def rmin (a b : ℚ) : ℚ := if a ≤ b then a else b

/-- Executable maximum on the rationals (kernel-reducible, equal to
`max` by `max_def`). -/
def rmax (a b : ℚ) : ℚ := if a ≤ b then b else a

/-- Executable absolute value on the rationals. -/
def rabs (x : ℚ) : ℚ := if x ≤ 0 then -x else x

/-! ## Editex (src/abydos/distance/editex.py) -/

/-- The ten letter groups of Zobel and Dart, as in `editex`. -/
def letter_groups : List (List Char) :=
  [['A', 'E', 'I', 'O', 'U', 'Y'],
   ['B', 'P'],
   ['C', 'K', 'Q'],
   ['D', 'T'],
   ['L', 'R'],
   ['M', 'N'],
   ['G', 'J'],
   ['F', 'P', 'V'],
   ['S', 'X', 'Z'],
   ['C', 'S', 'Z']]

/-- The 24-letter set `all_letters` of `editex` (H and W are absent). -/
def all_letters : List Char :=
  ['A', 'B', 'C', 'D', 'E', 'F', 'G', 'I', 'J', 'K', 'L', 'M',
   'N', 'O', 'P', 'Q', 'R', 'S', 'T', 'U', 'V', 'X', 'Y', 'Z']

/-- `r(a, b)`: match cost for equal characters, the group cost when the
two characters share a letter group, otherwise the mismatch cost. -/
def r_cost (mc gc mm : ℤ) (a b : Char) : ℤ :=
  if a = b then mc
  else if all_letters.contains a && all_letters.contains b
          && letter_groups.any (fun g => g.contains a && g.contains b) then gc
  else mm

/-- `d(a, b)`: like `r`, except that a differing pair whose first
character is H or W costs the group cost. -/
def d_cost (mc gc mm : ℤ) (a b : Char) : ℤ :=
  if a ≠ b ∧ (a = 'H' ∨ a = 'W') then gc else r_cost mc gc mm a b

/-- Expansion of the German sharp s into SS, as the literal
`replace` call in `editex` does. -/
def ssExpand : List Char → List Char
  | [] => []
  | c :: rest => if c = 'ß' then 'S' :: 'S' :: ssExpand rest else c :: ssExpand rest

/-- Editex preprocessing: uppercase, NFKD (modelled as the identity,
exact on ASCII), and sharp-s expansion. -/
def editexPrep (s : String) : String :=
  String.mk (ssExpand (s.toList.map Char.toUpper))

/-- Row 0 of the Editex DP matrix: cumulative boundary costs along the
padded target. -/
def row0 (mc gc mm : ℤ) (tp : List Char) : ℕ → ℤ
  | 0 => 0
  | j + 1 => row0 mc gc mm tp j + d_cost mc gc mm (tp.getD j ' ') (tp.getD (j + 1) ' ')

/-- One Editex DP row computed from the previous row `prev`.  Cell 0 is
left at zero in local mode, otherwise accumulates the source boundary
cost; interior cells take the minimum of the delete, insert and
substitute moves exactly as in the source. -/
def nextRow (mc gc mm : ℤ) (lcl : Bool) (prev : ℕ → ℤ) (sPrev sCur : Char)
    (tp : List Char) : ℕ → ℤ
  | 0 => if lcl then 0 else prev 0 + d_cost mc gc mm sPrev sCur
  | j + 1 =>
      min (min (prev (j + 1) + d_cost mc gc mm sPrev sCur)
               (nextRow mc gc mm lcl prev sPrev sCur tp j
                  + d_cost mc gc mm (tp.getD j ' ') (tp.getD (j + 1) ' ')))
          (prev j + r_cost mc gc mm sCur (tp.getD (j + 1) ' '))

/-- The Editex DP matrix `d_mat`, row by row, over the padded source
`sp` and padded target `tp`. -/
def dmatRow (mc gc mm : ℤ) (lcl : Bool) (sp tp : List Char) : ℕ → ℕ → ℤ
  | 0 => row0 mc gc mm tp
  | i + 1 => nextRow mc gc mm lcl (dmatRow mc gc mm lcl sp tp i)
      (sp.getD i ' ') (sp.getD (i + 1) ' ') tp

/-- The Editex distance of `editex`: preprocessing, the equal and empty
fast paths, then the DP over the space-padded strings. -/
def editex (src tar : String) (cost : ℤ × ℤ × ℤ) (lcl : Bool) : ℤ :=
  let mc := cost.1
  let gc := cost.2.1
  let mm := cost.2.2
  let s := editexPrep src
  let t := editexPrep tar
  if s = t then 0
  else if s = "" then (t.length : ℤ) * mm
  else if t = "" then (s.length : ℤ) * mm
  else dmatRow mc gc mm lcl (' ' :: s.toList) (' ' :: t.toList) s.length t.length

/-- `dist_editex`: the Editex distance divided by the larger of the two
raw string lengths times the mismatch cost.  A zero normalizer is a
Python `ZeroDivisionError`, modelled as an error. -/
def dist_editex (src tar : String) (cost : ℤ × ℤ × ℤ) (lcl : Bool) :
    Except DistErr ℚ :=
  if src = tar then Except.ok 0
  else
    let mm := cost.2.2
    let nz : ℚ := rmax ((src.length : ℚ) * (mm : ℚ)) ((tar.length : ℚ) * (mm : ℚ))
    if nz = 0 then Except.error DistErr.divisionByZero
    else Except.ok ((editex src tar cost lcl : ℤ) / nz)

/-- `sim_editex`: the complement of the normalized Editex distance. -/
def sim_editex (src tar : String) (cost : ℤ × ℤ × ℤ) (lcl : Bool) :
    Except DistErr ℚ :=
  (dist_editex src tar cost lcl).map (fun d => 1 - d)

/-! ## Typo distance (src/abydos/distance/typo.py) -/

/-- A keyboard layout: the unshifted and the shifted half, each a list
of rows whose entries are the key labels of the source tuples
(including the empty placeholder entries). -/
def Kb : Type := List (List String) × List (List String)

/-- The apostrophe key label. -/
def sq : String := String.singleton (Char.ofNat 39)

/-- The backquote key label. -/
def bq : String := String.singleton (Char.ofNat 96)

/-- The QWERTY layout of `typo`. -/
def qwertyKb : Kb :=
  ([[bq, "1", "2", "3", "4", "5", "6", "7", "8", "9", "0", "-", "="],
    ["", "q", "w", "e", "r", "t", "y", "u", "i", "o", "p", "[", "]", "\\"],
    ["", "a", "s", "d", "f", "g", "h", "j", "k", "l", ";", sq],
    ["", "z", "x", "c", "v", "b", "n", "m", ",", ".", "/"]],
   [["~", "!", "@", "#", "$", "%", "^", "&", "*", "(", ")", "_", "+"],
    ["", "Q", "W", "E", "R", "T", "Y", "U", "I", "O", "P", "\x7b", "\x7d", "|"],
    ["", "A", "S", "D", "F", "G", "H", "J", "K", "L", ":", "\""],
    ["", "Z", "X", "C", "V", "B", "N", "M", "<", ">", "?"]])

/-- The Dvorak layout of `typo`. -/
def dvorakKb : Kb :=
  ([[bq, "1", "2", "3", "4", "5", "6", "7", "8", "9", "0", "[", "]"],
    ["", sq, ",", ".", "p", "y", "f", "g", "c", "r", "l", "/", "=", "\\"],
    ["", "a", "o", "e", "u", "i", "d", "h", "t", "n", "s", "-"],
    ["", ";", "q", "j", "k", "x", "b", "m", "w", "v", "z"]],
   [["~", "!", "@", "#", "$", "%", "^", "&", "*", "(", ")", "\x7b", "\x7d"],
    ["", "\"", "<", ">", "P", "Y", "F", "G", "C", "R", "L", "?", "+", "|"],
    ["", "A", "O", "E", "U", "I", "D", "H", "T", "N", "S", "_"],
    ["", ":", "Q", "J", "K", "X", "B", "M", "W", "V", "Z"]])

/-- The AZERTY layout of `typo`, transcribed verbatim from the source
(including its duplicated W in the shifted half). -/
def azertyKb : Kb :=
  ([["²", "&", "é", "\"", sq, "(", "-", "è", "_", "ç", "à", ")", "="],
    ["", "a", "z", "e", "r", "t", "y", "u", "i", "o", "p", "", "$"],
    ["", "q", "s", "d", "f", "g", "h", "j", "k", "l", "m", "ù", "*"],
    ["<", "w", "x", "c", "v", "b", "n", ",", ";", ":", "!"]],
   [["~", "1", "2", "3", "4", "5", "6", "7", "8", "9", "0", "°", "+"],
    ["", "A", "W", "E", "R", "T", "Y", "U", "I", "O", "P", "", "£"],
    ["", "Q", "S", "D", "F", "G", "H", "J", "K", "L", "M", "Ù", "μ"],
    [">", "W", "X", "C", "V", "B", "N", "?", ".", "/", "§"]])

/-- The QWERTZ layout of `typo`. -/
def qwertzKb : Kb :=
  ([["", "1", "2", "3", "4", "5", "6", "7", "8", "9", "0", "ß", ""],
    ["", "q", "w", "e", "r", "t", "z", "u", "i", "o", "p", " ü", "+", "\\"],
    ["", "a", "s", "d", "f", "g", "h", "j", "k", "l", "ö", "ä", "#"],
    ["<", "y", "x", "c", "v", "b", "n", "m", ",", ".", "-"]],
   [["°", "!", "\"", "§", "$", "%", "&", "/", "(", ")", "=", "?", ""],
    ["", "Q", "W", "E", "R", "T", "Z", "U", "I", "O", "P", "Ü", "*", ""],
    ["", "A", "S", "D", "F", "G", "H", "J", "K", "L", "Ö", "Ä", sq],
    [">", "Y", "X", "C", "V", "B", "N", "M", ";", ":", "_"]])

/-- The layout dictionary `kbs` of `typo`: lookup by name. -/
def kbs : String → Option Kb
  | "QWERTY" => some qwertyKb
  | "Dvorak" => some dvorakKb
  | "AZERTY" => some azertyKb
  | "QWERTZ" => some qwertzKb
  | _ => none

/-- Membership of a character in a layout half (the source builds the
set of all entries of the half and tests the one-character string). -/
def inHalf (half : List (List String)) (c : Char) : Bool :=
  half.any (fun row => row.any (fun k => k == String.singleton c))

/-- `_kb_array_for_char`: the half of the layout containing the
character, the unshifted half being tried first; a character in
neither half is a raised ValueError. -/
def kb_array_for_char (kb : Kb) (c : Char) : Except DistErr (List (List String)) :=
  if inHalf kb.1 c then Except.ok kb.1
  else if inHalf kb.2 c then Except.ok kb.2
  else Except.error (DistErr.unsupportedChar c)

/-- `_get_char_coord`: row and column of the first occurrence of the
character in the given half. -/
def get_char_coord (c : Char) (half : List (List String)) : ℕ × ℕ :=
  let ri := half.findIdx (fun row => row.any (fun k => k == String.singleton c))
  (ri, (half.getD ri []).findIdx (fun k => k == String.singleton c))

/-- `_euclidean_keyboard_distance`, with `x ** 0.5` interpreted by
`sqrtK`.  The first character is resolved before the second, as in the
source. -/
def euclidean_keyboard_distance (sqrtK : ℚ → ℚ) (kb : Kb) (c1 c2 : Char) :
    Except DistErr ℚ := do
  let a1 ← kb_array_for_char kb c1
  let p1 := get_char_coord c1 a1
  let a2 ← kb_array_for_char kb c2
  let p2 := get_char_coord c2 a2
  pure (sqrtK (((p1.1 : ℚ) - (p2.1 : ℚ)) ^ 2 + ((p1.2 : ℚ) - (p2.2 : ℚ)) ^ 2))

/-- `_manhattan_keyboard_distance`. -/
def manhattan_keyboard_distance (kb : Kb) (c1 c2 : Char) : Except DistErr ℚ := do
  let a1 ← kb_array_for_char kb c1
  let p1 := get_char_coord c1 a1
  let a2 ← kb_array_for_char kb c2
  let p2 := get_char_coord c2 a2
  pure (rabs ((p1.1 : ℚ) - (p2.1 : ℚ)) + rabs ((p1.2 : ℚ) - (p2.2 : ℚ)))

/-- `_log_euclidean_keyboard_distance`, with `math.log` interpreted by
`logK`. -/
def log_euclidean_keyboard_distance (sqrtK logK : ℚ → ℚ) (kb : Kb) (c1 c2 : Char) :
    Except DistErr ℚ := do
  let v ← euclidean_keyboard_distance sqrtK kb c1 c2
  pure (logK (1 + v))

/-- `_log_manhattan_keyboard_distance`. -/
def log_manhattan_keyboard_distance (logK : ℚ → ℚ) (kb : Kb) (c1 c2 : Char) :
    Except DistErr ℚ := do
  let v ← manhattan_keyboard_distance kb c1 c2
  pure (logK (1 + v))

/-- `metric_dict[metric]`: name lookup of the keyboard metric; an
unknown name is a raised KeyError. -/
def metric_dict (sqrtK logK : ℚ → ℚ) (kb : Kb) (metric : String) :
    Except DistErr (Char → Char → Except DistErr ℚ)  :=
  match metric with
  | "euclidean" => Except.ok (euclidean_keyboard_distance sqrtK kb)
  | "manhattan" => Except.ok (manhattan_keyboard_distance kb)
  | "log-euclidean" => Except.ok (log_euclidean_keyboard_distance sqrtK logK kb)
  | "log-manhattan" => Except.ok (log_manhattan_keyboard_distance logK kb)
  | _ => Except.error DistErr.unknownMetric

/-- The list of metric names `typo` accepts. -/
def validMetrics : List String :=
  ["euclidean", "manhattan", "log-euclidean", "log-manhattan"]

/-- `_substitution_cost`: metric lookup first, then the keyboard
distance, then the shift surcharge when the two characters live in
different halves. -/
def substitution_cost (sqrtK logK : ℚ → ℚ) (kb : Kb) (metric : String)
    (sub shift : ℚ) (c1 c2 : Char) : Except DistErr ℚ := do
  let mf ← metric_dict sqrtK logK kb metric
  let v ← mf c1 c2
  let a1 ← kb_array_for_char kb c1
  let a2 ← kb_array_for_char kb c2
  pure (sub * (v + shift * (if a1 = a2 then 0 else 1)))

/-- One interior row of the typo DP, built left to right from the
previous row; `subf` is the substitution-cost callback, consulted only
when the two characters differ, and its error aborts the computation
exactly where the source raises. -/
def buildRow (ins del : ℚ) (subf : Char → Char → Except DistErr ℚ) (sc : Char) :
    ℚ → List ℚ → List Char → ℚ → Except DistErr (List ℚ)
  | pDiag, pUp :: pRest, tc :: tRest, curLeft => do
      let s ← if sc = tc then pure 0 else subf sc tc
      let c := rmin (rmin (curLeft + ins) (pUp + del)) (pDiag + s)
      let rest ← buildRow ins del subf sc pUp pRest tRest c
      pure (c :: rest)
  | _, _, [], _ => pure []
  | _, [], _ :: _, _ => pure []

/-- The row loop of the typo DP over the source characters; row `i + 1`
starts from the column-0 value `(i + 1) * del`. -/
def rowsLoop (ins del : ℚ) (subf : Char → Char → Except DistErr ℚ)
    (tChars : List Char) : List Char → ℕ → List ℚ → Except DistErr (List ℚ)
  | [], _, prev => pure prev
  | sc :: sRest, i, prev =>
      match prev with
      | pDiag :: pTail => do
          let first : ℚ := ((i : ℚ) + 1) * del
          let rest ← buildRow ins del subf sc pDiag pTail tChars first
          rowsLoop ins del subf tChars sRest (i + 1) (first :: rest)
      | [] => pure []

/-- The typo distance of `typo`: cost unpacking, the equal and empty
fast paths, layout lookup, then the DP; the result is the last cell of
the last row. -/
def typo (sqrtK logK : ℚ → ℚ) (src tar : String) (metric : String)
    (cost : List ℚ) (layout : String) : Except DistErr ℚ :=
  match cost with
  | [ins, del, sub, shift] =>
      if src = tar then Except.ok 0
      else if src = "" then Except.ok ((tar.length : ℚ) * ins)
      else if tar = "" then Except.ok ((src.length : ℚ) * del)
      else
        match kbs layout with
        | none => Except.error DistErr.unknownLayout
        | some kb => do
            let subf := substitution_cost sqrtK logK kb metric sub shift
            let firstRow := (List.range (tar.length + 1)).map (fun (j : ℕ) => (j : ℚ) * ins)
            let finalRow ← rowsLoop ins del subf tar.toList src.toList 0 firstRow
            pure (finalRow.getLastD 0)
  | _ => Except.error DistErr.costArity

/-- `dist_typo`: the equal fast path precedes the cost unpacking; the
normalizer is the larger of source length times the delete cost and
target length times the insert cost. -/
def dist_typo (sqrtK logK : ℚ → ℚ) (src tar : String) (metric : String)
    (cost : List ℚ) (layout : String) : Except DistErr ℚ :=
  if src = tar then Except.ok 0
  else
    match cost with
    | ins :: del :: _ => do
        let v ← typo sqrtK logK src tar metric cost layout
        let nz : ℚ := rmax ((src.length : ℚ) * del) ((tar.length : ℚ) * ins)
        if nz = 0 then Except.error DistErr.divisionByZero
        else pure (v / nz)
    | _ => Except.error DistErr.costArity

/-- `sim_typo`: the complement of the normalized typo distance. -/
def sim_typo (sqrtK logK : ℚ → ℚ) (src tar : String) (metric : String)
    (cost : List ℚ) (layout : String) : Except DistErr ℚ :=
  (dist_typo sqrtK logK src tar metric cost layout).map (fun d => 1 - d)

/-- Supported character: present in one of the two halves. -/
def supportedChar (kb : Kb) (c : Char) : Bool :=
  inHalf kb.1 c || inHalf kb.2 c

end Abydos

/-! ## Claim theorems and supporting lemmas -/

namespace Abydos

/-- C4: with the default cost tuple and the global variant, the three
literal Editex scenarios of the specification hold: cat/hat gives 2,
Niall/Neil gives 2 and ATCG/TAGC gives 6. -/
theorem editex_literal_scenarios :
    editex "cat" "hat" (0, 1, 2) false = 2
    ∧ editex "Niall" "Neil" (0, 1, 2) false = 2
    ∧ editex "ATCG" "TAGC" (0, 1, 2) false = 6 := by
  refine ⟨by decide, by decide, by decide⟩

/-- C9: every string, the empty string included, is at distance zero
from itself, for the raw Editex distance, the raw typo distance at its
default configuration, and both normalized distances. -/
theorem self_distance_zero :
    (∀ (s : String) (cost : ℤ × ℤ × ℤ) (lcl : Bool), editex s s cost lcl = 0)
    ∧ (∀ (sqrtK logK : ℚ → ℚ) (s : String),
        typo sqrtK logK s s "euclidean" [1, 1, 1/2, 1/2] "QWERTY" = Except.ok 0)
    ∧ (∀ (s : String) (cost : ℤ × ℤ × ℤ) (lcl : Bool),
        dist_editex s s cost lcl = Except.ok 0)
    ∧ (∀ (sqrtK logK : ℚ → ℚ) (s : String),
        dist_typo sqrtK logK s s "euclidean" [1, 1, 1/2, 1/2] "QWERTY" = Except.ok 0) := by
  refine ⟨fun s cost lcl => ?_, fun _ _ s => ?_, fun s cost lcl => ?_, fun _ _ s => ?_⟩
  · simp [editex]
  · simp [typo]
  · simp [dist_editex]
  · simp [dist_typo]

/-- C10: the equal-input fast path of `typo` precedes the layout
lookup, the metric lookup and every character lookup: any string
compared with itself under any 4-element cost tuple, any metric name
and any layout name yields 0 with no error. -/
theorem typo_equal_fast_path (sqrtK logK : ℚ → ℚ) (s metric layout : String)
    (ic dc sc shc : ℚ) :
    typo sqrtK logK s s metric [ic, dc, sc, shc] layout = Except.ok 0 := by
  simp [typo]

/-- The r cost is nonnegative for nonnegative cost components. -/
theorem r_cost_nonneg {mc gc mm : ℤ} (h1 : 0 ≤ mc) (h2 : 0 ≤ gc) (h3 : 0 ≤ mm)
    (a b : Char) : 0 ≤ r_cost mc gc mm a b := by
  unfold r_cost
  split
  · exact h1
  split
  · exact h2
  · exact h3

/-- The r cost never exceeds the mismatch cost when the match and
group costs do not. -/
theorem r_cost_le {mc gc mm : ℤ} (h1 : mc ≤ mm) (h2 : gc ≤ mm)
    (a b : Char) : r_cost mc gc mm a b ≤ mm := by
  unfold r_cost
  split
  · exact h1
  split
  · exact h2
  · exact le_refl mm

/-- The d cost is nonnegative for nonnegative cost components. -/
theorem d_cost_nonneg {mc gc mm : ℤ} (h1 : 0 ≤ mc) (h2 : 0 ≤ gc) (h3 : 0 ≤ mm)
    (a b : Char) : 0 ≤ d_cost mc gc mm a b := by
  unfold d_cost
  split
  · exact h2
  · exact r_cost_nonneg h1 h2 h3 a b

/-- The d cost never exceeds the mismatch cost when the match and
group costs do not. -/
theorem d_cost_le {mc gc mm : ℤ} (h1 : mc ≤ mm) (h2 : gc ≤ mm)
    (a b : Char) : d_cost mc gc mm a b ≤ mm := by
  unfold d_cost
  split
  · exact h2
  · exact r_cost_le h1 h2 a b

/-- Row 0 of the Editex DP is nonnegative for nonnegative costs. -/
theorem row0_nonneg {mc gc mm : ℤ} (h1 : 0 ≤ mc) (h2 : 0 ≤ gc) (h3 : 0 ≤ mm)
    (tp : List Char) : ∀ j, 0 ≤ row0 mc gc mm tp j := by
  intro j
  induction j with
  | zero => simp [row0]
  | succ j ih => exact add_nonneg ih (d_cost_nonneg h1 h2 h3 _ _)

/-- Row 0 of the Editex DP is bounded by the column index times the
mismatch cost. -/
theorem row0_le {mc gc mm : ℤ} (h1 : mc ≤ mm) (h2 : gc ≤ mm)
    (tp : List Char) : ∀ j : ℕ, row0 mc gc mm tp j ≤ (j : ℤ) * mm := by
  intro j
  induction j with
  | zero => simp [row0]
  | succ j ih =>
      have := add_le_add ih (d_cost_le h1 h2 (tp.getD j ' ') (tp.getD (j + 1) ' '))
      calc row0 mc gc mm tp (j + 1) ≤ (j : ℤ) * mm + mm := this
        _ = ((j : ℤ) + 1) * mm := by ring
        _ = (((j + 1 : ℕ)) : ℤ) * mm := by push_cast; ring

/-- A DP row built by `nextRow` is nonnegative when the previous row
and the costs are. -/
theorem nextRow_nonneg {mc gc mm : ℤ} {lcl : Bool} {prev : ℕ → ℤ}
    (h1 : 0 ≤ mc) (h2 : 0 ≤ gc) (h3 : 0 ≤ mm)
    (hprev : ∀ j, 0 ≤ prev j) (sPrev sCur : Char) (tp : List Char) :
    ∀ j, 0 ≤ nextRow mc gc mm lcl prev sPrev sCur tp j := by
  intro j
  induction j with
  | zero =>
      unfold nextRow
      split
      · exact le_refl 0
      · exact add_nonneg (hprev 0) (d_cost_nonneg h1 h2 h3 _ _)
  | succ j ih =>
      unfold nextRow
      refine le_min (le_min ?_ ?_) ?_
      · exact add_nonneg (hprev (j + 1)) (d_cost_nonneg h1 h2 h3 _ _)
      · exact add_nonneg ih (d_cost_nonneg h1 h2 h3 _ _)
      · exact add_nonneg (hprev j) (r_cost_nonneg h1 h2 h3 _ _)

/-- Every cell of the Editex DP is nonnegative for nonnegative costs. -/
theorem dmatRow_nonneg {mc gc mm : ℤ} {lcl : Bool}
    (h1 : 0 ≤ mc) (h2 : 0 ≤ gc) (h3 : 0 ≤ mm) (sp tp : List Char) :
    ∀ i j, 0 ≤ dmatRow mc gc mm lcl sp tp i j := by
  intro i
  induction i with
  | zero => exact fun j => row0_nonneg h1 h2 h3 tp j
  | succ i ih =>
      intro j
      unfold dmatRow
      exact nextRow_nonneg h1 h2 h3 ih _ _ tp j

/-- A DP row built by `nextRow` for row index `i + 1` is bounded by
`max (i + 1) j * mm` when the previous row is bounded accordingly. -/
theorem nextRow_le {mc gc mm : ℤ} {lcl : Bool} {prev : ℕ → ℤ} (i : ℕ)
    (h1 : 0 ≤ mc) (h2 : 0 ≤ gc) (h1m : mc ≤ mm) (h2m : gc ≤ mm)
    (hprev : ∀ j : ℕ, prev j ≤ max (i : ℤ) (j : ℤ) * mm)
    (sPrev sCur : Char) (tp : List Char) :
    ∀ j : ℕ, nextRow mc gc mm lcl prev sPrev sCur tp j
      ≤ max ((i : ℤ) + 1) (j : ℤ) * mm := by
  have h3 : (0 : ℤ) ≤ mm := le_trans h1 h1m
  intro j
  induction j with
  | zero =>
      have hmax : max ((i : ℤ) + 1) ((0 : ℕ) : ℤ) = (i : ℤ) + 1 := by
        rw [max_eq_left]
        positivity
      rw [hmax]
      unfold nextRow
      split
      · positivity
      · have := add_le_add (hprev 0) (le_refl (d_cost mc gc mm sPrev sCur))
        calc prev 0 + d_cost mc gc mm sPrev sCur
            ≤ max (i : ℤ) ((0 : ℕ) : ℤ) * mm + d_cost mc gc mm sPrev sCur := this
          _ ≤ (i : ℤ) * mm + mm := by
              rw [show max (i : ℤ) ((0 : ℕ) : ℤ) = (i : ℤ) by
                rw [max_eq_left]; positivity]
              exact add_le_add_left (d_cost_le h1m h2m _ _) _
          _ = ((i : ℤ) + 1) * mm := by ring
  | succ j ih =>
      unfold nextRow
      refine le_trans (min_le_right _ _) ?_
      have := add_le_add (hprev j) (r_cost_le h1m h2m sCur (tp.getD (j + 1) ' '))
      calc prev j + r_cost mc gc mm sCur (tp.getD (j + 1) ' ')
          ≤ max (i : ℤ) (j : ℤ) * mm + mm := this
        _ = (max (i : ℤ) (j : ℤ) + 1) * mm := by ring
        _ = max ((i : ℤ) + 1) ((j : ℤ) + 1) * mm := by rw [max_add_add_right]
        _ = max ((i : ℤ) + 1) (((j + 1 : ℕ)) : ℤ) * mm := by push_cast; ring_nf

/-- Every cell of the Editex DP is bounded by the larger index times
the mismatch cost, for cost tuples whose match and group components do
not exceed the mismatch component. -/
theorem dmatRow_le {mc gc mm : ℤ} {lcl : Bool}
    (h1 : 0 ≤ mc) (h2 : 0 ≤ gc) (h1m : mc ≤ mm) (h2m : gc ≤ mm)
    (sp tp : List Char) :
    ∀ i j : ℕ, dmatRow mc gc mm lcl sp tp i j ≤ max (i : ℤ) (j : ℤ) * mm := by
  intro i
  induction i with
  | zero =>
      intro j
      have hmax : max ((0 : ℕ) : ℤ) (j : ℤ) = (j : ℤ) := by
        rw [max_eq_right]; positivity
      rw [show dmatRow mc gc mm lcl sp tp 0 j = row0 mc gc mm tp j from rfl, hmax]
      exact row0_le h1m h2m tp j
  | succ i ih =>
      intro j
      unfold dmatRow
      have := @nextRow_le mc gc mm lcl (dmatRow mc gc mm lcl sp tp i) i
        h1 h2 h1m h2m ih (sp.getD i ' ') (sp.getD (i + 1) ' ') tp j
      calc nextRow mc gc mm lcl (dmatRow mc gc mm lcl sp tp i)
            (sp.getD i ' ') (sp.getD (i + 1) ' ') tp j
          ≤ max ((i : ℤ) + 1) (j : ℤ) * mm := this
        _ = max (((i + 1 : ℕ)) : ℤ) (j : ℤ) * mm := by push_cast; ring_nf

/-- Freeing column 0 can only lower a `nextRow` cell, pointwise over
the previous rows. -/
theorem nextRow_local_le {mc gc mm : ℤ} {prevT prevF : ℕ → ℤ}
    (h1 : 0 ≤ mc) (h2 : 0 ≤ gc) (h3 : 0 ≤ mm)
    (hpp : ∀ j, prevT j ≤ prevF j) (hpF : ∀ j, 0 ≤ prevF j)
    (sPrev sCur : Char) (tp : List Char) :
    ∀ j, nextRow mc gc mm true prevT sPrev sCur tp j
      ≤ nextRow mc gc mm false prevF sPrev sCur tp j := by
  intro j
  induction j with
  | zero =>
      show (0 : ℤ) ≤ prevF 0 + d_cost mc gc mm sPrev sCur
      exact add_nonneg (hpF 0) (d_cost_nonneg h1 h2 h3 _ _)
  | succ j ih =>
      unfold nextRow
      refine min_le_min (min_le_min ?_ ?_) ?_
      · exact add_le_add_right (hpp (j + 1)) _
      · exact add_le_add_right ih _
      · exact add_le_add_right (hpp j) _

/-- Every cell of the local-variant Editex DP is bounded by the
corresponding cell of the global variant, for nonnegative costs. -/
theorem dmatRow_local_le {mc gc mm : ℤ}
    (h1 : 0 ≤ mc) (h2 : 0 ≤ gc) (h3 : 0 ≤ mm) (sp tp : List Char) :
    ∀ i j, dmatRow mc gc mm true sp tp i j ≤ dmatRow mc gc mm false sp tp i j := by
  intro i
  induction i with
  | zero => exact fun j => le_refl _
  | succ i ih =>
      intro j
      unfold dmatRow
      exact nextRow_local_le h1 h2 h3 ih
        (dmatRow_nonneg h1 h2 h3 sp tp i) _ _ tp j

/-- `ssExpand` maps nonempty lists to nonempty lists. -/
theorem ssExpand_ne_nil {l : List Char} (h : l ≠ []) : ssExpand l ≠ [] := by
  cases l with
  | nil => exact absurd rfl h
  | cons c r =>
      unfold ssExpand
      split <;> simp

/-- Preprocessing maps a string to the empty string exactly when the
string itself is empty. -/
theorem editexPrep_empty_iff (s : String) : editexPrep s = "" ↔ s = "" := by
  cases s with
  | mk l =>
      constructor
      · intro h
        have hL : ssExpand ((String.mk l).toList.map Char.toUpper) = [] := by
          have := congrArg String.toList h
          simpa [editexPrep] using this
        cases l with
        | nil => rfl
        | cons c r =>
            exact absurd hL (ssExpand_ne_nil (by simp [String.toList]))
      · intro h
        rw [h]
        rfl

/-- The Editex distance is nonnegative for nonnegative costs. -/
theorem editex_nonneg (src tar : String) {mc gc mm : ℤ} (lcl : Bool)
    (h1 : 0 ≤ mc) (h2 : 0 ≤ gc) (h3 : 0 ≤ mm) :
    0 ≤ editex src tar (mc, gc, mm) lcl := by
  simp only [editex]
  split_ifs
  · exact le_refl 0
  · exact mul_nonneg (by positivity) h3
  · exact mul_nonneg (by positivity) h3
  · exact dmatRow_nonneg h1 h2 h3 _ _ _ _

/-- The Editex distance is bounded by the larger preprocessed length
times the mismatch cost, for cost tuples whose match and group
components do not exceed the mismatch component. -/
theorem editex_le (src tar : String) {mc gc mm : ℤ} (lcl : Bool)
    (h1 : 0 ≤ mc) (h2 : 0 ≤ gc) (h1m : mc ≤ mm) (h2m : gc ≤ mm) :
    editex src tar (mc, gc, mm) lcl
      ≤ max ((editexPrep src).length : ℤ) ((editexPrep tar).length : ℤ) * mm := by
  have h3 : (0 : ℤ) ≤ mm := le_trans h1 h1m
  simp only [editex]
  split_ifs
  · positivity
  · exact mul_le_mul_of_nonneg_right (le_max_right _ _) h3
  · exact mul_le_mul_of_nonneg_right (le_max_left _ _) h3
  · exact dmatRow_le h1 h2 h1m h2m _ _ _ _

/-- C5: for every pair of strings and every nonnegative cost tuple
(the data-model invariant of the specification), the local Editex
variant is bounded by the global one: freeing the source-prefix
boundary cannot increase the cost. -/
theorem editex_local_monotone (src tar : String) (mc gc mm : ℤ)
    (h1 : 0 ≤ mc) (h2 : 0 ≤ gc) (h3 : 0 ≤ mm) :
    editex src tar (mc, gc, mm) true ≤ editex src tar (mc, gc, mm) false := by
  simp only [editex]
  split_ifs
  · exact le_refl 0
  · exact le_refl _
  · exact le_refl _
  · exact dmatRow_local_le h1 h2 h3 _ _ _ _

/-- Witness for C5 at a concrete input with the default cost tuple. -/
theorem editex_local_monotone_witness :
    (0 : ℤ) ≤ 0 ∧ (0 : ℤ) ≤ 1 ∧ (0 : ℤ) ≤ 2
    ∧ editex "cat" "hat" (0, 1, 2) true ≤ editex "cat" "hat" (0, 1, 2) false :=
  ⟨by decide, by decide, by decide,
    editex_local_monotone "cat" "hat" 0 1 2 (by decide) (by decide) (by decide)⟩

/-- C6 amended: equality of the preprocessed strings forces Editex
distance zero, and normalized distance zero whenever the mismatch cost
is positive; the converse implication of the original claim is refuted
by the counterexample. -/
theorem editex_prep_equal_zero (src tar : String) (mc gc mm : ℤ) (lcl : Bool)
    (hp : editexPrep src = editexPrep tar) :
    editex src tar (mc, gc, mm) lcl = 0
    ∧ (0 < mm → dist_editex src tar (mc, gc, mm) lcl = Except.ok 0) := by
  constructor
  · simp [editex, hp]
  · intro hmm
    by_cases hst : src = tar
    · simp [dist_editex, hst]
    · have hz : editex src tar (mc, gc, mm) lcl = 0 := by simp [editex, hp]
      have hnz : (0 : ℚ)
          < rmax ((src.length : ℚ) * (mm : ℚ)) ((tar.length : ℚ) * (mm : ℚ)) := by
        have hne : src ≠ "" ∨ tar ≠ "" := by
          by_contra hcon
          push_neg at hcon
          exact hst (hcon.1.trans hcon.2.symm)
        have hmmq : (0 : ℚ) < (mm : ℚ) := by exact_mod_cast hmm
        rw [show rmax ((src.length : ℚ) * (mm : ℚ)) ((tar.length : ℚ) * (mm : ℚ))
            = max ((src.length : ℚ) * (mm : ℚ)) ((tar.length : ℚ) * (mm : ℚ)) by
          rw [rmax, max_def]]
        rcases hne with hne | hne
        · have hlen : 0 < src.length := by
            cases src with
            | mk l =>
                cases l with
                | nil => exact absurd rfl hne
                | cons c r => simp [String.length]
          refine lt_max_of_lt_left ?_
          have : (0 : ℚ) < (src.length : ℚ) := by exact_mod_cast hlen
          positivity
        · have hlen : 0 < tar.length := by
            cases tar with
            | mk l =>
                cases l with
                | nil => exact absurd rfl hne
                | cons c r => simp [String.length]
          refine lt_max_of_lt_right ?_
          have : (0 : ℚ) < (tar.length : ℚ) := by exact_mod_cast hlen
          positivity
      simp only [dist_editex, if_neg hst, if_neg (ne_of_gt hnz), hz]
      norm_num

/-- Witness for C6 amended: cat and CAT preprocess identically. -/
theorem editex_prep_equal_zero_witness :
    editex "cat" "CAT" (0, 1, 2) false = 0
    ∧ ((0 : ℤ) < 2 → dist_editex "cat" "CAT" (0, 1, 2) false = Except.ok 0) :=
  editex_prep_equal_zero "cat" "CAT" 0 1 2 false (by decide)

/-- C7 amended: the empty-side fast path of Editex charges the
mismatch cost per character of the PREPROCESSED nonempty side, while
the typo fast paths charge the insert or delete cost per raw character
of the nonempty side. -/
theorem empty_side_costs (s t : String) (mc gc mm : ℤ) (lcl : Bool)
    (sqrtK logK : ℚ → ℚ) (metric layout : String) (ic dc sc shc : ℚ)
    (hs : s ≠ "") (ht : t ≠ "") :
    editex "" t (mc, gc, mm) lcl = ((editexPrep t).length : ℤ) * mm
    ∧ editex s "" (mc, gc, mm) lcl = ((editexPrep s).length : ℤ) * mm
    ∧ typo sqrtK logK "" t metric [ic, dc, sc, shc] layout
        = Except.ok ((t.length : ℚ) * ic)
    ∧ typo sqrtK logK s "" metric [ic, dc, sc, shc] layout
        = Except.ok ((s.length : ℚ) * dc) := by
  have hpt : editexPrep t ≠ "" := fun h => ht ((editexPrep_empty_iff t).mp h)
  have hps : editexPrep s ≠ "" := fun h => hs ((editexPrep_empty_iff s).mp h)
  refine ⟨?_, ?_, ?_, ?_⟩
  · have h0 : editexPrep "" = "" := rfl
    simp [editex, h0, Ne.symm hpt]
  · have h0 : editexPrep "" = "" := rfl
    simp [editex, h0, hps]
  · simp [typo, Ne.symm ht]
  · simp [typo, hs]

/-- Witness for C7 amended, reproducing the literal boundary scenario
of the specification: three mismatch-cost insertions give 6. -/
theorem empty_side_costs_witness :
    (editex "" "abc" (0, 1, 2) false = ((editexPrep "abc").length : ℤ) * 2
      ∧ editex "abc" "" (0, 1, 2) false = ((editexPrep "abc").length : ℤ) * 2
      ∧ typo id id "" "abc" "euclidean" [1, 1, 1/2, 1/2] "QWERTY"
          = Except.ok ((("abc" : String).length : ℚ) * 1)
      ∧ typo id id "abc" "" "euclidean" [1, 1, 1/2, 1/2] "QWERTY"
          = Except.ok ((("abc" : String).length : ℚ) * 1))
    ∧ editex "" "abc" (0, 1, 2) false = 6 :=
  ⟨empty_side_costs "abc" "abc" 0 1 2 false id id "euclidean" "QWERTY"
      1 1 (1/2) (1/2) (by decide) (by decide),
    by decide⟩

/-- `rabs` agrees with the absolute value. -/
theorem rabs_eq_abs (x : ℚ) : rabs x = |x| := by
  unfold rabs
  split
  · exact (abs_of_nonpos (by assumption)).symm
  · rename_i h
    exact (abs_of_pos (not_le.mp h)).symm

/-- `rabs` of a difference is symmetric. -/
theorem rabs_sub_comm (a b : ℚ) : rabs (a - b) = rabs (b - a) := by
  rw [rabs_eq_abs, rabs_eq_abs, abs_sub_comm]

/-- The Editex pair cost `r` is symmetric. -/
theorem r_cost_symm (mc gc mm : ℤ) (a b : Char) :
    r_cost mc gc mm a b = r_cost mc gc mm b a := by
  unfold r_cost
  by_cases h : a = b
  · subst h
    rfl
  · have h2 : ¬ b = a := fun hh => h hh.symm
    rw [if_neg h, if_neg h2]
    have hg : (letter_groups.any (fun g => g.contains a && g.contains b))
        = letter_groups.any (fun g => g.contains b && g.contains a) := by
      have hfun : (fun (g : List Char) => g.contains a && g.contains b)
          = fun g => g.contains b && g.contains a := by
        funext g
        exact Bool.and_comm _ _
      rw [hfun]
    rw [Bool.and_comm (all_letters.contains a) (all_letters.contains b), hg]

/-- The shift-surcharge payload of the substitution cost is symmetric
once the bare metric values agree. -/
theorem sub_payload_symm (sub shift v w : ℚ) (a1 a2 : List (List String))
    (hvw : v = w) :
    sub * (v + shift * (if a1 = a2 then (0 : ℚ) else 1))
      = sub * (w + shift * (if a2 = a1 then (0 : ℚ) else 1)) := by
  subst hvw
  by_cases h : a1 = a2
  · subst h
    rfl
  · rw [if_neg h, if_neg (fun hh => h hh.symm)]

/-- The typo substitution cost is symmetric in its two characters, for
every metric name, every layout, and every interpretation of the
square root and logarithm, provided at least one of the characters is
supported (when both are unsupported, each direction raises an error
naming its own first character). -/
theorem substitution_cost_symm (sqrtK logK : ℚ → ℚ) (kb : Kb) (metric : String)
    (sub shift : ℚ) (c1 c2 : Char)
    (h : isOk (kb_array_for_char kb c1) = true
      ∨ isOk (kb_array_for_char kb c2) = true) :
    substitution_cost sqrtK logK kb metric sub shift c1 c2
      = substitution_cost sqrtK logK kb metric sub shift c2 c1 := by
  unfold substitution_cost metric_dict
  cases e1 : kb_array_for_char kb c1 with
  | error err1 =>
      cases e2 : kb_array_for_char kb c2 with
      | error err2 =>
          exfalso
          rcases h with h | h
          · rw [e1] at h
            exact absurd h (by simp [isOk])
          · rw [e2] at h
            exact absurd h (by simp [isOk])
      | ok a2 =>
          split <;>
            simp [Except.bind, Except.pure, pure, bind, euclidean_keyboard_distance,
              manhattan_keyboard_distance, log_euclidean_keyboard_distance,
              log_manhattan_keyboard_distance, e1, e2]
  | ok a1 =>
      cases e2 : kb_array_for_char kb c2 with
      | error err2 =>
          split <;>
            simp [Except.bind, Except.pure, pure, bind, euclidean_keyboard_distance,
              manhattan_keyboard_distance, log_euclidean_keyboard_distance,
              log_manhattan_keyboard_distance, e1, e2]
      | ok a2 =>
          split
          · -- euclidean
            simp only [Except.bind, Except.pure, euclidean_keyboard_distance,
              e1, e2, pure, bind]
            exact congrArg Except.ok (sub_payload_symm _ _ _ _ _ _
              (congrArg sqrtK (by ring)))
          · -- manhattan
            simp only [Except.bind, Except.pure, manhattan_keyboard_distance,
              e1, e2, pure, bind]
            exact congrArg Except.ok (sub_payload_symm _ _ _ _ _ _
              (by rw [rabs_sub_comm, rabs_sub_comm
                ((get_char_coord c1 a1).2 : ℚ) ((get_char_coord c2 a2).2 : ℚ)]))
          · -- log-euclidean
            simp only [Except.bind, Except.pure, log_euclidean_keyboard_distance,
              euclidean_keyboard_distance, e1, e2, pure, bind]
            exact congrArg Except.ok (sub_payload_symm _ _ _ _ _ _
              (congrArg logK (by rw [congrArg sqrtK (show
                (((get_char_coord c1 a1).1 : ℚ) - ((get_char_coord c2 a2).1 : ℚ)) ^ 2
                  + (((get_char_coord c1 a1).2 : ℚ) - ((get_char_coord c2 a2).2 : ℚ)) ^ 2
                = (((get_char_coord c2 a2).1 : ℚ) - ((get_char_coord c1 a1).1 : ℚ)) ^ 2
                  + (((get_char_coord c2 a2).2 : ℚ) - ((get_char_coord c1 a1).2 : ℚ)) ^ 2
                from by ring)])))
          · -- log-manhattan
            simp only [Except.bind, Except.pure, log_manhattan_keyboard_distance,
              manhattan_keyboard_distance, e1, e2, pure, bind]
            exact congrArg Except.ok (sub_payload_symm _ _ _ _ _ _
              (congrArg logK (by rw [rabs_sub_comm, rabs_sub_comm
                ((get_char_coord c1 a1).2 : ℚ) ((get_char_coord c2 a2).2 : ℚ)])))
          · -- unknown metric: both directions raise the same error
            simp [Except.bind, bind]

/-- C8: the Editex pair cost is symmetric for all characters and cost
components, and the typo substitution cost is symmetric for every
supported metric and layout whenever at least one of the two
characters is present in the layout. -/
theorem pair_cost_symmetric :
    (∀ (mc gc mm : ℤ) (a b : Char), r_cost mc gc mm a b = r_cost mc gc mm b a)
    ∧ (∀ (sqrtK logK : ℚ → ℚ) (kb : Kb) (metric : String) (sub shift : ℚ)
        (c1 c2 : Char),
        isOk (kb_array_for_char kb c1) = true
          ∨ isOk (kb_array_for_char kb c2) = true →
        substitution_cost sqrtK logK kb metric sub shift c1 c2
          = substitution_cost sqrtK logK kb metric sub shift c2 c1) :=
  ⟨r_cost_symm, substitution_cost_symm⟩

/-- Witness for C8 at concrete letters on the QWERTY layout. -/
theorem pair_cost_symmetric_witness :
    r_cost 0 1 2 'S' 'C' = r_cost 0 1 2 'C' 'S'
    ∧ substitution_cost id id qwertyKb "manhattan" (1/2) (1/2) 'a' 'b'
        = substitution_cost id id qwertyKb "manhattan" (1/2) (1/2) 'b' 'a' :=
  ⟨pair_cost_symmetric.1 0 1 2 'S' 'C',
    pair_cost_symmetric.2 id id qwertyKb "manhattan" (1/2) (1/2) 'a' 'b'
      (Or.inl (by decide))⟩

/-- `rmin` agrees with the lattice minimum. -/
theorem rmin_eq_min (a b : ℚ) : rmin a b = min a b := by
  rw [rmin, min_def]

/-- `rmax` agrees with the lattice maximum. -/
theorem rmax_eq_max (a b : ℚ) : rmax a b = max a b := by
  rw [rmax, max_def]

/-- C2 amended: a cost tuple of the wrong arity raises before
anything else; an unknown layout raises before the DP but after the
equal and empty fast paths; an unknown metric and negative cost
components are not validated eagerly (counterexample theorem). -/
theorem typo_validation_order :
    (∀ (sqrtK logK : ℚ → ℚ) (src tar metric layout : String) (cost : List ℚ),
      cost.length ≠ 4 →
      typo sqrtK logK src tar metric cost layout = Except.error DistErr.costArity)
    ∧ (∀ (sqrtK logK : ℚ → ℚ) (src tar metric layout : String) (ic dc sc shc : ℚ),
      src ≠ tar → src ≠ "" → tar ≠ "" → kbs layout = none →
      typo sqrtK logK src tar metric [ic, dc, sc, shc] layout
        = Except.error DistErr.unknownLayout) := by
  constructor
  · intro sqrtK logK src tar metric layout cost hlen
    rcases cost with _ | ⟨a, _ | ⟨b, _ | ⟨c, _ | ⟨d, _ | ⟨e, rest⟩⟩⟩⟩⟩
    · rfl
    · rfl
    · rfl
    · rfl
    · exact absurd rfl hlen
    · rfl
  · intro sqrtK logK src tar metric layout ic dc sc shc hne hs ht hl
    simp [typo, hne, hs, ht, hl]

/-- Witness for C2 amended: an empty cost tuple and an unknown layout
name both raise. -/
theorem typo_validation_order_witness :
    typo id id "x" "y" "euclidean" [] "QWERTY" = Except.error DistErr.costArity
    ∧ typo id id "a" "b" "euclidean" [1, 1, 1/2, 1/2] "bogus"
        = Except.error DistErr.unknownLayout :=
  ⟨typo_validation_order.1 id id "x" "y" "euclidean" "QWERTY" [] (by decide),
    typo_validation_order.2 id id "a" "b" "euclidean" "bogus" 1 1 (1/2) (1/2)
      (by decide) (by decide) (by decide) rfl⟩

/-- A substitution cost that returns a value returns a nonnegative
one, for nonnegative substitute and shift costs and interpretations of
square root and logarithm that are nonnegative on the arguments the
code feeds them. -/
theorem substitution_cost_ok_nonneg {sqrtK logK : ℚ → ℚ} {kb : Kb}
    {metric : String} {sub shift : ℚ} {c1 c2 : Char} {v : ℚ}
    (hsq : ∀ x : ℚ, 0 ≤ x → 0 ≤ sqrtK x)
    (hlog : ∀ x : ℚ, 1 ≤ x → 0 ≤ logK x)
    (hsub : 0 ≤ sub) (hshift : 0 ≤ shift)
    (h : substitution_cost sqrtK logK kb metric sub shift c1 c2 = Except.ok v) :
    0 ≤ v := by
  have habs : ∀ a b : ℚ, 0 ≤ rabs a + rabs b := by
    intro a b
    rw [rabs_eq_abs, rabs_eq_abs]
    positivity
  have hsq2 : ∀ a b : ℚ, 0 ≤ sqrtK ((a : ℚ) ^ 2 + (b : ℚ) ^ 2) := by
    intro a b
    exact hsq _ (by positivity)
  have hite : ∀ a1 a2 : List (List String), (0 : ℚ) ≤ if a1 = a2 then 0 else 1 := by
    intro a1 a2
    split <;> norm_num
  unfold substitution_cost metric_dict at h
  split at h
  · -- euclidean
    cases e1 : kb_array_for_char kb c1 with
    | error err1 =>
        simp [euclidean_keyboard_distance, Except.bind, bind, pure,
          Except.pure, e1] at h
    | ok a1 =>
        cases e2 : kb_array_for_char kb c2 with
        | error err2 =>
            simp [euclidean_keyboard_distance, Except.bind, bind, pure,
              Except.pure, e1, e2] at h
        | ok a2 =>
            simp only [euclidean_keyboard_distance, Except.bind, bind, pure,
              Except.pure, Except.ok.injEq, e1, e2] at h
            subst h
            exact mul_nonneg hsub (add_nonneg (hsq2 _ _)
              (mul_nonneg hshift (hite _ _)))
  · -- manhattan
    cases e1 : kb_array_for_char kb c1 with
    | error err1 =>
        simp [manhattan_keyboard_distance, Except.bind, bind, pure,
          Except.pure, e1] at h
    | ok a1 =>
        cases e2 : kb_array_for_char kb c2 with
        | error err2 =>
            simp [manhattan_keyboard_distance, Except.bind, bind, pure,
              Except.pure, e1, e2] at h
        | ok a2 =>
            simp only [manhattan_keyboard_distance, Except.bind, bind, pure,
              Except.pure, Except.ok.injEq, e1, e2] at h
            subst h
            exact mul_nonneg hsub (add_nonneg (habs _ _)
              (mul_nonneg hshift (hite _ _)))
  · -- log-euclidean
    cases e1 : kb_array_for_char kb c1 with
    | error err1 =>
        simp [log_euclidean_keyboard_distance, euclidean_keyboard_distance,
          Except.bind, bind, pure, Except.pure, e1] at h
    | ok a1 =>
        cases e2 : kb_array_for_char kb c2 with
        | error err2 =>
            simp [log_euclidean_keyboard_distance, euclidean_keyboard_distance,
              Except.bind, bind, pure, Except.pure, e1, e2] at h
        | ok a2 =>
            simp only [log_euclidean_keyboard_distance,
              euclidean_keyboard_distance, Except.bind, bind, pure,
              Except.pure, Except.ok.injEq, e1, e2] at h
            subst h
            refine mul_nonneg hsub (add_nonneg ?_
              (mul_nonneg hshift (hite _ _)))
            refine hlog _ ?_
            have := hsq2 (((get_char_coord c1 a1).1 : ℚ) - ((get_char_coord c2 a2).1 : ℚ))
              (((get_char_coord c1 a1).2 : ℚ) - ((get_char_coord c2 a2).2 : ℚ))
            linarith
  · -- log-manhattan
    cases e1 : kb_array_for_char kb c1 with
    | error err1 =>
        simp [log_manhattan_keyboard_distance, manhattan_keyboard_distance,
          Except.bind, bind, pure, Except.pure, e1] at h
    | ok a1 =>
        cases e2 : kb_array_for_char kb c2 with
        | error err2 =>
            simp [log_manhattan_keyboard_distance, manhattan_keyboard_distance,
              Except.bind, bind, pure, Except.pure, e1, e2] at h
        | ok a2 =>
            simp only [log_manhattan_keyboard_distance,
              manhattan_keyboard_distance, Except.bind, bind, pure,
              Except.pure, Except.ok.injEq, e1, e2] at h
            subst h
            refine mul_nonneg hsub (add_nonneg ?_
              (mul_nonneg hshift (hite _ _)))
            refine hlog _ ?_
            have := habs (((get_char_coord c1 a1).1 : ℚ) - ((get_char_coord c2 a2).1 : ℚ))
              (((get_char_coord c1 a1).2 : ℚ) - ((get_char_coord c2 a2).2 : ℚ))
            linarith
  · -- unknown metric
    simp [Except.bind, bind] at h

/-- The default-carrying last element of a list of nonnegatives is
nonnegative. -/
theorem getLastD_nonneg {l : List ℚ} (h : ∀ x ∈ l, 0 ≤ x) : 0 ≤ l.getLastD 0 := by
  induction l with
  | nil => exact le_refl 0
  | cons a t ih =>
      cases t with
      | nil => simpa using h a (by simp)
      | cons b t2 =>
          have hstep : (a :: b :: t2).getLastD 0 = (b :: t2).getLastD 0 := by
            simp [List.getLastD]
          rw [hstep]
          exact ih (fun x hx => h x (List.mem_cons_of_mem a hx))

/-- Every entry of a typo DP row built by `buildRow` is nonnegative
when the previous row, the seed and the costs are, and the
substitution callback only returns nonnegative values. -/
theorem buildRow_all_nonneg {ins del : ℚ} {subf : Char → Char → Except DistErr ℚ}
    {sc : Char} (hins : 0 ≤ ins) (hdel : 0 ≤ del)
    (hsubf : ∀ c1 c2 v, subf c1 c2 = Except.ok v → 0 ≤ v) :
    ∀ (tChars : List Char) (pDiag : ℚ) (pTail : List ℚ) (curLeft : ℚ)
      (l : List ℚ),
      0 ≤ pDiag → (∀ x ∈ pTail, 0 ≤ x) → 0 ≤ curLeft →
      buildRow ins del subf sc pDiag pTail tChars curLeft = Except.ok l →
      ∀ x ∈ l, 0 ≤ x := by
  intro tChars
  induction tChars with
  | nil =>
      intro pDiag pTail curLeft l _ _ _ h
      cases pTail <;> simp [buildRow, pure, Except.pure] at h <;> subst h <;> simp
  | cons tc tRest ih =>
      intro pDiag pTail curLeft l hpd hpt hcl h
      cases pTail with
      | nil =>
          simp [buildRow, pure, Except.pure] at h
          subst h
          simp
      | cons pUp pRest =>
          have step : ∀ sval : ℚ, 0 ≤ sval →
              (do
                let rest ← buildRow ins del subf sc pUp pRest tRest
                  (rmin (rmin (curLeft + ins) (pUp + del)) (pDiag + sval))
                (pure (rmin (rmin (curLeft + ins) (pUp + del)) (pDiag + sval) :: rest)
                  : Except DistErr (List ℚ))) = Except.ok l →
              ∀ x ∈ l, 0 ≤ x := by
            intro sval hsval hbind
            have hcell : 0 ≤ rmin (rmin (curLeft + ins) (pUp + del)) (pDiag + sval) := by
              rw [rmin_eq_min, rmin_eq_min]
              refine le_min (le_min ?_ ?_) ?_
              · exact add_nonneg hcl hins
              · exact add_nonneg (hpt pUp (by simp)) hdel
              · exact add_nonneg hpd hsval
            cases hrest : buildRow ins del subf sc pUp pRest tRest
                (rmin (rmin (curLeft + ins) (pUp + del)) (pDiag + sval)) with
            | error e =>
                rw [hrest] at hbind
                simp [Except.bind, bind] at hbind
            | ok rest =>
                rw [hrest] at hbind
                simp only [Except.bind, bind, pure, Except.pure,
                  Except.ok.injEq] at hbind
                subst hbind
                intro x hx
                rcases List.mem_cons.mp hx with rfl | hx
                · exact hcell
                · exact ih pUp pRest _ rest (hpt pUp (by simp))
                    (fun y hy => hpt y (by simp [hy])) hcell hrest x hx
          rw [buildRow] at h
          split at h
          · exact step 0 (le_refl 0) (by simpa [pure, Except.pure, Except.bind, bind] using h)
          · rename_i heq
            cases hsv : subf sc tc with
            | error e =>
                rw [hsv] at h
                simp [Except.bind, bind] at h
            | ok sval =>
                rw [hsv] at h
                exact step sval (hsubf sc tc sval hsv)
                  (by simpa [pure, Except.pure, Except.bind, bind] using h)

/-- Every entry of every row of the typo DP is nonnegative under the
same conditions. -/
theorem rowsLoop_all_nonneg {ins del : ℚ} {subf : Char → Char → Except DistErr ℚ}
    {tChars : List Char} (hins : 0 ≤ ins) (hdel : 0 ≤ del)
    (hsubf : ∀ c1 c2 v, subf c1 c2 = Except.ok v → 0 ≤ v) :
    ∀ (sL : List Char) (i : ℕ) (prev r : List ℚ),
      (∀ x ∈ prev, 0 ≤ x) →
      rowsLoop ins del subf tChars sL i prev = Except.ok r →
      ∀ x ∈ r, 0 ≤ x := by
  intro sL
  induction sL with
  | nil =>
      intro i prev r hprev h
      simp [rowsLoop, pure, Except.pure] at h
      subst h
      exact hprev
  | cons sc sRest ih =>
      intro i prev r hprev h
      cases prev with
      | nil =>
          simp [rowsLoop, pure, Except.pure] at h
          subst h
          simp
      | cons pDiag pTail =>
          have hfirst : (0 : ℚ) ≤ ((i : ℚ) + 1) * del :=
            mul_nonneg (by positivity) hdel
          cases hbr : buildRow ins del subf sc pDiag pTail tChars
              (((i : ℚ) + 1) * del) with
          | error e =>
              rw [rowsLoop] at h
              simp [Except.bind, bind, hbr] at h
          | ok rest =>
              rw [rowsLoop] at h
              simp only [Except.bind, bind, hbr] at h
              have hrest : ∀ x ∈ rest, 0 ≤ x :=
                buildRow_all_nonneg hins hdel hsubf tChars pDiag pTail _ rest
                  (hprev pDiag (by simp))
                  (fun y hy => hprev y (by simp [hy])) hfirst hbr
              refine ih (i + 1) ((((i : ℚ) + 1) * del) :: rest) r ?_ h
              intro x hx
              rcases List.mem_cons.mp hx with rfl | hx
              · exact hfirst
              · exact hrest x hx

/-- A typo distance that returns a value returns a nonnegative one,
for nonnegative cost tuples and interpretations of square root and
logarithm that are nonnegative on the arguments the code feeds them. -/
theorem typo_ok_nonneg {sqrtK logK : ℚ → ℚ} {src tar metric layout : String}
    {cost : List ℚ} {v : ℚ}
    (hsq : ∀ x : ℚ, 0 ≤ x → 0 ≤ sqrtK x)
    (hlog : ∀ x : ℚ, 1 ≤ x → 0 ≤ logK x)
    (hc : ∀ c ∈ cost, 0 ≤ c)
    (h : typo sqrtK logK src tar metric cost layout = Except.ok v) : 0 ≤ v := by
  unfold typo at h
  rcases cost with _ | ⟨ic, _ | ⟨dc, _ | ⟨sc, _ | ⟨shc, _ | ⟨e, rest⟩⟩⟩⟩⟩
  case nil => simp at h
  case cons.nil => simp at h
  case cons.cons.nil => simp at h
  case cons.cons.cons.nil => simp at h
  case cons.cons.cons.cons.cons => simp at h
  have hic : 0 ≤ ic := hc ic (by simp)
  have hdc : 0 ≤ dc := hc dc (by simp)
  have hsc : 0 ≤ sc := hc sc (by simp)
  have hshc : 0 ≤ shc := hc shc (by simp)
  split_ifs at h with h1 h2 h3
  · cases h
    exact le_refl 0
  · cases h
    positivity
  · cases h
    positivity
  · cases hkb : kbs layout with
    | none =>
        rw [hkb] at h
        exact absurd h (by simp)
    | some kb =>
        rw [hkb] at h
        simp only [String.toList] at h
        cases hro : rowsLoop ic dc
            (substitution_cost sqrtK logK kb metric sc shc) tar.data
            src.data 0
            ((List.range (tar.length + 1)).map (fun (j : ℕ) => (j : ℚ) * ic)) with
        | error e =>
            simp [Except.bind, bind, hro] at h
        | ok finalRow =>
            simp only [Except.bind, bind, hro, pure, Except.pure,
              Except.ok.injEq] at h
            subst h
            refine getLastD_nonneg ?_
            refine rowsLoop_all_nonneg hic hdc ?_ src.data 0 _ finalRow ?_ hro
            · exact fun c1 c2 w hw =>
                substitution_cost_ok_nonneg hsq hlog hsc hshc hw
            · intro x hx
              rcases List.mem_map.mp hx with ⟨j, hj, rfl⟩
              positivity

/-- C1 amended: the similarity is exactly the complement of the
normalized distance for both metrics; the normalized Editex distance
lies in [0, 1] whenever the match and group costs do not exceed the
mismatch cost and preprocessing preserves the input lengths; the
normalized typo distance is nonnegative for nonnegative
configurations, but its upper bound by 1 fails (counterexample
theorem). -/
theorem norm_dist_bounds_and_complement :
    (∀ (src tar : String) (cost : ℤ × ℤ × ℤ) (lcl : Bool) (q : ℚ),
      dist_editex src tar cost lcl = Except.ok q →
      sim_editex src tar cost lcl = Except.ok (1 - q))
    ∧ (∀ (sqrtK logK : ℚ → ℚ) (src tar metric layout : String)
        (cost : List ℚ) (q : ℚ),
      dist_typo sqrtK logK src tar metric cost layout = Except.ok q →
      sim_typo sqrtK logK src tar metric cost layout = Except.ok (1 - q))
    ∧ (∀ (src tar : String) (mc gc mm : ℤ) (lcl : Bool) (q : ℚ),
      0 ≤ mc → 0 ≤ gc → mc ≤ mm → gc ≤ mm →
      (editexPrep src).length = src.length →
      (editexPrep tar).length = tar.length →
      dist_editex src tar (mc, gc, mm) lcl = Except.ok q → 0 ≤ q ∧ q ≤ 1)
    ∧ (∀ (sqrtK logK : ℚ → ℚ) (src tar metric layout : String)
        (cost : List ℚ) (q : ℚ),
      (∀ x : ℚ, 0 ≤ x → 0 ≤ sqrtK x) → (∀ x : ℚ, 1 ≤ x → 0 ≤ logK x) →
      (∀ c ∈ cost, 0 ≤ c) →
      dist_typo sqrtK logK src tar metric cost layout = Except.ok q → 0 ≤ q) := by
  refine ⟨?_, ?_, ?_, ?_⟩
  · intro src tar cost lcl q h
    unfold sim_editex
    rw [h]
    rfl
  · intro sqrtK logK src tar metric layout cost q h
    unfold sim_typo
    rw [h]
    rfl
  · intro src tar mc gc mm lcl q h1 h2 h1m h2m hls hlt hq
    have hmm : (0 : ℤ) ≤ mm := le_trans h1 h1m
    have hmmq : (0 : ℚ) ≤ (mm : ℚ) := by exact_mod_cast hmm
    by_cases hst : src = tar
    · rw [dist_editex, if_pos hst] at hq
      cases hq
      norm_num
    · rw [dist_editex, if_neg hst] at hq
      by_cases hnz : rmax ((src.length : ℚ) * (mm : ℚ)) ((tar.length : ℚ) * (mm : ℚ)) = 0
      · rw [if_pos hnz] at hq
        cases hq
      · rw [if_neg hnz] at hq
        have hq2 : ((editex src tar (mc, gc, mm) lcl : ℤ) : ℚ)
            / rmax ((src.length : ℚ) * (mm : ℚ)) ((tar.length : ℚ) * (mm : ℚ)) = q := by
          cases hq
          rfl
        have hnn : (0 : ℚ)
            ≤ rmax ((src.length : ℚ) * (mm : ℚ)) ((tar.length : ℚ) * (mm : ℚ)) := by
          rw [rmax_eq_max]
          exact le_trans (mul_nonneg (by positivity) hmmq) (le_max_left _ _)
        have hpos : (0 : ℚ)
            < rmax ((src.length : ℚ) * (mm : ℚ)) ((tar.length : ℚ) * (mm : ℚ)) :=
          lt_of_le_of_ne hnn (Ne.symm hnz)
        have hnum0 : (0 : ℚ) ≤ ((editex src tar (mc, gc, mm) lcl : ℤ) : ℚ) := by
          exact_mod_cast editex_nonneg src tar lcl h1 h2 hmm
        constructor
        · rw [← hq2]
          exact div_nonneg hnum0 hnn
        · rw [← hq2, div_le_one hpos]
          have hb := editex_le src tar lcl h1 h2 h1m h2m
          rw [hls, hlt] at hb
          have hbq : ((editex src tar (mc, gc, mm) lcl : ℤ) : ℚ)
              ≤ max (src.length : ℚ) (tar.length : ℚ) * (mm : ℚ) := by
            exact_mod_cast hb
          rw [rmax_eq_max, ← max_mul_of_nonneg _ _ hmmq]
          exact hbq
  · intro sqrtK logK src tar metric layout cost q hsq hlog hcn hq
    rcases cost with _ | ⟨ic, _ | ⟨dc, rest⟩⟩
    · by_cases hst : src = tar
      · simp only [dist_typo, if_pos hst, Except.ok.injEq] at hq
        subst hq
        exact le_refl 0
      · simp [dist_typo, if_neg hst] at hq
    · by_cases hst : src = tar
      · simp only [dist_typo, if_pos hst, Except.ok.injEq] at hq
        subst hq
        exact le_refl 0
      · simp [dist_typo, if_neg hst] at hq
    · simp only [dist_typo] at hq
      by_cases hst : src = tar
      · rw [if_pos hst] at hq
        cases hq
        exact le_refl 0
      · rw [if_neg hst] at hq
        have hic : 0 ≤ ic := hcn ic (by simp)
        have hdc : 0 ≤ dc := hcn dc (by simp)
        cases htv : typo sqrtK logK src tar metric (ic :: dc :: rest) layout with
        | error e =>
            rw [htv] at hq
            simp [Except.bind, bind] at hq
        | ok v =>
            rw [htv] at hq
            have hv : 0 ≤ v := typo_ok_nonneg hsq hlog hcn htv
            by_cases hnz : rmax ((src.length : ℚ) * dc) ((tar.length : ℚ) * ic) = 0
            · simp only [Except.bind, bind] at hq
              rw [if_pos hnz] at hq
              cases hq
            · simp only [Except.bind, bind] at hq
              rw [if_neg hnz] at hq
              have hq2 : v / rmax ((src.length : ℚ) * dc) ((tar.length : ℚ) * ic) = q := by
                cases hq
                rfl
              have hnn : (0 : ℚ) ≤ rmax ((src.length : ℚ) * dc) ((tar.length : ℚ) * ic) := by
                rw [rmax_eq_max]
                exact le_trans (mul_nonneg (by positivity) hdc) (le_max_left _ _)
              rw [← hq2]
              exact div_nonneg hv hnn

/-- Witness for C1 amended at concrete inputs: the cat/hat Editex
scenario and a one-letter typo comparison. -/
theorem norm_dist_bounds_and_complement_witness :
    sim_editex "cat" "hat" (0, 1, 2) false = Except.ok (1 - 1/3)
    ∧ sim_typo id id "a" "b" "manhattan" [1, 1, 1/2, 1/2] "QWERTY"
        = Except.ok (1 - 2)
    ∧ ((0 : ℚ) ≤ 1/3 ∧ (1/3 : ℚ) ≤ 1)
    ∧ (0 : ℚ) ≤ 2 :=
  ⟨norm_dist_bounds_and_complement.1 "cat" "hat" (0, 1, 2) false (1/3)
      (by with_unfolding_all decide),
    norm_dist_bounds_and_complement.2.1 id id "a" "b" "manhattan" "QWERTY"
      [1, 1, 1/2, 1/2] 2 (by with_unfolding_all decide),
    norm_dist_bounds_and_complement.2.2.1 "cat" "hat" 0 1 2 false (1/3)
      (by decide) (by decide) (by decide) (by decide) (by decide) (by decide)
      (by with_unfolding_all decide),
    norm_dist_bounds_and_complement.2.2.2 id id "a" "b" "manhattan" "QWERTY"
      [1, 1, 1/2, 1/2] 2 (fun x hx => hx) (fun x hx => le_trans zero_le_one hx)
      (by intro c hc; simp at hc; rcases hc with rfl | rfl | rfl | rfl <;> norm_num)
      (by with_unfolding_all decide)⟩

/-- A character in neither half of the layout makes the lookup raise
the error that names it. -/
theorem kb_array_unsupported {kb : Kb} {c : Char}
    (h : supportedChar kb c = false) :
    kb_array_for_char kb c = Except.error (DistErr.unsupportedChar c) := by
  unfold supportedChar at h
  rw [Bool.or_eq_false_iff] at h
  unfold kb_array_for_char
  rw [if_neg (by rw [h.1]; exact Bool.false_ne_true),
    if_neg (by rw [h.2]; exact Bool.false_ne_true)]

/-- A failing layout lookup names exactly the unsupported character. -/
theorem kb_array_error_form {kb : Kb} {c : Char} {e : DistErr}
    (h : kb_array_for_char kb c = Except.error e) :
    e = DistErr.unsupportedChar c ∧ supportedChar kb c = false := by
  unfold kb_array_for_char at h
  split_ifs at h with h1 h2
  refine ⟨by cases h; rfl, ?_⟩
  unfold supportedChar
  rw [Bool.or_eq_false_iff]
  exact ⟨by simpa using h1, by simpa using h2⟩

/-- The substitution cost cannot return a value when either character
is unsupported by the layout, whatever the metric name. -/
theorem substitution_cost_not_ok {sqrtK logK : ℚ → ℚ} {kb : Kb}
    {metric : String} {sub shift : ℚ} {c1 c2 : Char}
    (h : supportedChar kb c1 = false ∨ supportedChar kb c2 = false) :
    isOk (substitution_cost sqrtK logK kb metric sub shift c1 c2) = false := by
  have hrw : ∀ c : Char, supportedChar kb c = false →
      kb_array_for_char kb c = Except.error (DistErr.unsupportedChar c) :=
    fun c hc => kb_array_unsupported hc
  unfold substitution_cost metric_dict
  split
  · rcases h with h | h
    · simp [euclidean_keyboard_distance, isOk, Except.bind, bind, pure,
        Except.pure, hrw c1 h]
    · cases e1 : kb_array_for_char kb c1 with
      | error err1 =>
          simp [euclidean_keyboard_distance, isOk, Except.bind, bind, pure,
            Except.pure, e1]
      | ok a1 =>
          simp [euclidean_keyboard_distance, isOk, Except.bind, bind, pure,
            Except.pure, e1, hrw c2 h]
  · rcases h with h | h
    · simp [manhattan_keyboard_distance, isOk, Except.bind, bind, pure,
        Except.pure, hrw c1 h]
    · cases e1 : kb_array_for_char kb c1 with
      | error err1 =>
          simp [manhattan_keyboard_distance, isOk, Except.bind, bind, pure,
            Except.pure, e1]
      | ok a1 =>
          simp [manhattan_keyboard_distance, isOk, Except.bind, bind, pure,
            Except.pure, e1, hrw c2 h]
  · rcases h with h | h
    · simp [log_euclidean_keyboard_distance, euclidean_keyboard_distance,
        isOk, Except.bind, bind, pure, Except.pure, hrw c1 h]
    · cases e1 : kb_array_for_char kb c1 with
      | error err1 =>
          simp [log_euclidean_keyboard_distance, euclidean_keyboard_distance,
            isOk, Except.bind, bind, pure, Except.pure, e1]
      | ok a1 =>
          simp [log_euclidean_keyboard_distance, euclidean_keyboard_distance,
            isOk, Except.bind, bind, pure, Except.pure, e1, hrw c2 h]
  · rcases h with h | h
    · simp [log_manhattan_keyboard_distance, manhattan_keyboard_distance,
        isOk, Except.bind, bind, pure, Except.pure, hrw c1 h]
    · cases e1 : kb_array_for_char kb c1 with
      | error err1 =>
          simp [log_manhattan_keyboard_distance, manhattan_keyboard_distance,
            isOk, Except.bind, bind, pure, Except.pure, e1]
      | ok a1 =>
          simp [log_manhattan_keyboard_distance, manhattan_keyboard_distance,
            isOk, Except.bind, bind, pure, Except.pure, e1, hrw c2 h]
  · simp [isOk, Except.bind, bind]

/-- With a valid metric name, a failing substitution cost fails with
an UnsupportedCharacter error naming an unsupported character. -/
theorem substitution_cost_error_unsupported {sqrtK logK : ℚ → ℚ} {kb : Kb}
    {metric : String} {sub shift : ℚ} {c1 c2 : Char} {e : DistErr}
    (hm : metric ∈ validMetrics)
    (h : substitution_cost sqrtK logK kb metric sub shift c1 c2 = Except.error e) :
    ∃ c, supportedChar kb c = false ∧ e = DistErr.unsupportedChar c := by
  simp only [validMetrics, List.mem_cons, List.not_mem_nil, or_false] at hm
  unfold substitution_cost metric_dict at h
  rcases hm with rfl | rfl | rfl | rfl
  all_goals
    cases e1 : kb_array_for_char kb c1 with
    | error err1 =>
        have hf1 := kb_array_error_form e1
        refine ⟨c1, hf1.2, ?_⟩
        simp only [euclidean_keyboard_distance, manhattan_keyboard_distance,
          log_euclidean_keyboard_distance, log_manhattan_keyboard_distance,
          Except.bind, bind, pure, Except.pure, e1,
          Except.error.injEq] at h
        rw [← h, hf1.1]
    | ok a1 =>
        cases e2 : kb_array_for_char kb c2 with
        | error err2 =>
            have hf2 := kb_array_error_form e2
            refine ⟨c2, hf2.2, ?_⟩
            simp only [euclidean_keyboard_distance, manhattan_keyboard_distance,
              log_euclidean_keyboard_distance, log_manhattan_keyboard_distance,
              Except.bind, bind, pure, Except.pure, e1, e2,
              Except.error.injEq] at h
            rw [← h, hf2.1]
        | ok a2 =>
            simp only [euclidean_keyboard_distance, manhattan_keyboard_distance,
              log_euclidean_keyboard_distance, log_manhattan_keyboard_distance,
              Except.bind, bind, pure, Except.pure, e1, e2] at h
            exact Except.noConfusion h

/-- A successful `buildRow` has visited every target character: the
row has full length and every unequal pair it met had a working
substitution cost. -/
theorem buildRow_ok_strong {ins del : ℚ} {subf : Char → Char → Except DistErr ℚ}
    {sc : Char} :
    ∀ (tChars : List Char) (pDiag : ℚ) (pTail : List ℚ) (curLeft : ℚ)
      (l : List ℚ),
      buildRow ins del subf sc pDiag pTail tChars curLeft = Except.ok l →
      pTail.length = tChars.length →
      l.length = tChars.length
        ∧ ∀ tc ∈ tChars, sc = tc ∨ isOk (subf sc tc) = true := by
  intro tChars
  induction tChars with
  | nil =>
      intro pDiag pTail curLeft l h hlen
      cases pTail with
      | nil =>
          simp [buildRow, pure, Except.pure] at h
          subst h
          exact ⟨rfl, by simp⟩
      | cons a t => simp at hlen
  | cons tc tRest ih =>
      intro pDiag pTail curLeft l h hlen
      cases pTail with
      | nil => simp at hlen
      | cons pUp pRest =>
          have hlen2 : pRest.length = tRest.length := by simpa using hlen
          have step : ∀ sval : ℚ, (sc = tc ∨ isOk (subf sc tc) = true) →
              (do
                let rest ← buildRow ins del subf sc pUp pRest tRest
                  (rmin (rmin (curLeft + ins) (pUp + del)) (pDiag + sval))
                (pure (rmin (rmin (curLeft + ins) (pUp + del)) (pDiag + sval) :: rest)
                  : Except DistErr (List ℚ))) = Except.ok l →
              l.length = (tc :: tRest).length
                ∧ ∀ tc2 ∈ tc :: tRest, sc = tc2 ∨ isOk (subf sc tc2) = true := by
            intro sval hsc hbind
            cases hrest : buildRow ins del subf sc pUp pRest tRest
                (rmin (rmin (curLeft + ins) (pUp + del)) (pDiag + sval)) with
            | error e =>
                rw [hrest] at hbind
                simp [Except.bind, bind] at hbind
            | ok rest =>
                rw [hrest] at hbind
                simp only [Except.bind, bind, pure, Except.pure,
                  Except.ok.injEq] at hbind
                subst hbind
                obtain ⟨ihlen, ihsub⟩ := ih pUp pRest _ rest hrest hlen2
                refine ⟨by simp [ihlen], ?_⟩
                intro tc2 htc2
                rcases List.mem_cons.mp htc2 with rfl | htc2
                · exact hsc
                · exact ihsub tc2 htc2
          rw [buildRow] at h
          split at h
          · rename_i heq
            exact step 0 (Or.inl heq)
              (by simpa [pure, Except.pure, Except.bind, bind] using h)
          · cases hsv : subf sc tc with
            | error e =>
                rw [hsv] at h
                simp [Except.bind, bind] at h
            | ok sval =>
                rw [hsv] at h
                exact step sval (Or.inr (by rw [hsv]; rfl))
                  (by simpa [pure, Except.pure, Except.bind, bind] using h)

/-- A successful typo DP run has compared every source character with
every target character: each unequal pair had a working substitution
cost. -/
theorem rowsLoop_ok_strong {ins del : ℚ} {subf : Char → Char → Except DistErr ℚ}
    {tChars : List Char} :
    ∀ (sL : List Char) (i : ℕ) (prev r : List ℚ),
      rowsLoop ins del subf tChars sL i prev = Except.ok r →
      prev.length = tChars.length + 1 →
      ∀ sc ∈ sL, ∀ tc ∈ tChars, sc = tc ∨ isOk (subf sc tc) = true := by
  intro sL
  induction sL with
  | nil =>
      intro i prev r h hlen sc hsc
      exact absurd hsc (by simp)
  | cons sc0 sRest ih =>
      intro i prev r h hlen
      cases prev with
      | nil => simp at hlen
      | cons pDiag pTail =>
          have hlen2 : pTail.length = tChars.length := by simpa using hlen
          rw [rowsLoop] at h
          cases hbr : buildRow ins del subf sc0 pDiag pTail tChars
              (((i : ℚ) + 1) * del) with
          | error e =>
              simp [Except.bind, bind, hbr] at h
          | ok rest =>
              simp only [Except.bind, bind, hbr] at h
              obtain ⟨hrlen, hrsub⟩ :=
                buildRow_ok_strong tChars pDiag pTail _ rest hbr hlen2
              intro sc hsc tc htc
              rcases List.mem_cons.mp hsc with rfl | hsc
              · exact hrsub tc htc
              · exact ih (i + 1) ((((i : ℚ) + 1) * del) :: rest) r h
                  (by simp [hrlen]) sc hsc tc htc

/-- A failing `buildRow` fails because some substitution cost failed
with the same error. -/
theorem buildRow_error_form {ins del : ℚ} {subf : Char → Char → Except DistErr ℚ}
    {sc : Char} :
    ∀ (tChars : List Char) (pDiag : ℚ) (pTail : List ℚ) (curLeft : ℚ)
      (e : DistErr),
      buildRow ins del subf sc pDiag pTail tChars curLeft = Except.error e →
      ∃ tc, subf sc tc = Except.error e := by
  intro tChars
  induction tChars with
  | nil =>
      intro pDiag pTail curLeft e h
      cases pTail <;> simp [buildRow, pure, Except.pure] at h
  | cons tc tRest ih =>
      intro pDiag pTail curLeft e h
      cases pTail with
      | nil => simp [buildRow, pure, Except.pure] at h
      | cons pUp pRest =>
          have step : ∀ sval : ℚ,
              (do
                let rest ← buildRow ins del subf sc pUp pRest tRest
                  (rmin (rmin (curLeft + ins) (pUp + del)) (pDiag + sval))
                (pure (rmin (rmin (curLeft + ins) (pUp + del)) (pDiag + sval) :: rest)
                  : Except DistErr (List ℚ))) = Except.error e →
              ∃ tc2, subf sc tc2 = Except.error e := by
            intro sval hbind
            cases hrest : buildRow ins del subf sc pUp pRest tRest
                (rmin (rmin (curLeft + ins) (pUp + del)) (pDiag + sval)) with
            | error e2 =>
                rw [hrest] at hbind
                simp only [Except.bind, bind, Except.error.injEq] at hbind
                subst hbind
                exact ih pUp pRest _ _ hrest
            | ok rest =>
                rw [hrest] at hbind
                simp [Except.bind, bind, pure, Except.pure] at hbind
          rw [buildRow] at h
          split at h
          · exact step 0 (by simpa [pure, Except.pure, Except.bind, bind] using h)
          · cases hsv : subf sc tc with
            | error e2 =>
                rw [hsv] at h
                simp only [Except.bind, bind, Except.error.injEq] at h
                subst h
                exact ⟨tc, hsv⟩
            | ok sval =>
                rw [hsv] at h
                exact step sval
                  (by simpa [pure, Except.pure, Except.bind, bind] using h)

/-- A failing typo DP run fails because some substitution cost failed
with the same error. -/
theorem rowsLoop_error_form {ins del : ℚ} {subf : Char → Char → Except DistErr ℚ}
    {tChars : List Char} :
    ∀ (sL : List Char) (i : ℕ) (prev : List ℚ) (e : DistErr),
      rowsLoop ins del subf tChars sL i prev = Except.error e →
      ∃ c1 c2, subf c1 c2 = Except.error e := by
  intro sL
  induction sL with
  | nil =>
      intro i prev e h
      simp [rowsLoop, pure, Except.pure] at h
  | cons sc0 sRest ih =>
      intro i prev e h
      cases prev with
      | nil => simp [rowsLoop, pure, Except.pure] at h
      | cons pDiag pTail =>
          rw [rowsLoop] at h
          cases hbr : buildRow ins del subf sc0 pDiag pTail tChars
              (((i : ℚ) + 1) * del) with
          | error e2 =>
              simp only [Except.bind, bind, hbr, Except.error.injEq] at h
              subst h
              obtain ⟨tc, htc⟩ := buildRow_error_form tChars pDiag pTail _ _ hbr
              exact ⟨sc0, tc, htc⟩
          | ok rest =>
              simp only [Except.bind, bind, hbr] at h
              exact ih (i + 1) ((((i : ℚ) + 1) * del) :: rest) e h

/-- C3 amended: with a valid metric and layout, distinct nonempty
strings, and some source character differing from some target
character with one of the two unsupported, the call fails with an
UnsupportedCharacter error naming an unsupported character and no
result is returned.  (When every comparison involving the unsupported
character is against an equal character, the call can instead succeed:
counterexample theorem.) -/
theorem typo_unsupported_char_error (sqrtK logK : ℚ → ℚ)
    (src tar metric layout : String) (ic dc sc shc : ℚ) (kb : Kb)
    (hm : metric ∈ validMetrics) (hkb : kbs layout = some kb)
    (hne : src ≠ tar) (hs : src ≠ "") (ht : tar ≠ "")
    (hbad : ∃ c1 ∈ src.toList, ∃ c2 ∈ tar.toList, c1 ≠ c2
      ∧ (supportedChar kb c1 = false ∨ supportedChar kb c2 = false)) :
    ∃ c, supportedChar kb c = false
      ∧ typo sqrtK logK src tar metric [ic, dc, sc, shc] layout
          = Except.error (DistErr.unsupportedChar c) := by
  obtain ⟨c1, hc1, c2, hc2, hcc, hbad⟩ := hbad
  cases hro : rowsLoop ic dc (substitution_cost sqrtK logK kb metric sc shc)
      tar.toList src.toList 0
      ((List.range (tar.length + 1)).map (fun (j : ℕ) => (j : ℚ) * ic)) with
  | ok r =>
      exfalso
      have hlen : ((List.range (tar.length + 1)).map
          (fun (j : ℕ) => (j : ℚ) * ic)).length = tar.toList.length + 1 := by
        rw [List.length_map, List.length_range]
        rfl
      have hvis := rowsLoop_ok_strong src.toList 0 _ r hro hlen c1 hc1 c2 hc2
      rcases hvis with heq | hok
      · exact hcc heq
      · rw [substitution_cost_not_ok hbad] at hok
        exact Bool.false_ne_true hok
  | error e =>
      obtain ⟨d1, d2, hde⟩ := rowsLoop_error_form src.toList 0 _ e hro
      obtain ⟨c, hcs, hce⟩ := substitution_cost_error_unsupported hm hde
      refine ⟨c, hcs, ?_⟩
      subst hce
      simp only [typo, if_neg hne, if_neg hs, if_neg ht, hkb]
      simp only [String.toList] at hro ⊢
      rw [hro]
      rfl

/-- Witness for C3 amended: the unsupported euro sign against the
letter a on QWERTY raises. -/
theorem typo_unsupported_char_error_witness :
    ∃ c, supportedChar qwertyKb c = false
      ∧ typo id id "€" "a" "euclidean" [1, 1, 1/2, 1/2] "QWERTY"
          = Except.error (DistErr.unsupportedChar c) :=
  typo_unsupported_char_error id id "€" "a" "euclidean" "QWERTY" 1 1 (1/2) (1/2)
    qwertyKb (by decide) rfl (by decide) (by decide) (by decide)
    ⟨'€', by decide, 'a', by decide, by decide, Or.inl (by decide)⟩

/-- C1 counterexample: at the default cost tuple and a supported
metric, the normalized typo distance of two single keys on the same
layout exceeds 1, so the claimed bound fails. -/
theorem dist_typo_exceeds_one :
    dist_typo id id "a" "b" "manhattan" [1, 1, 1/2, 1/2] "QWERTY" = Except.ok 2
    ∧ ¬ ((2 : ℚ) ≤ 1) := by
  refine ⟨by with_unfolding_all decide, by norm_num⟩

/-- C2 counterexample: an invalid metric name does not raise at all
when no substitution cost is ever consulted, and a negative
substitution cost is accepted silently, so the claimed eager
validation fails. -/
theorem typo_lazy_validation :
    typo id id "a" "aa" "bogus" [1, 1, 1/2, 1/2] "QWERTY" = Except.ok 1
    ∧ typo id id "a" "b" "manhattan" [1, 1, -1, 0] "QWERTY" = Except.ok (-5) := by
  refine ⟨by with_unfolding_all decide, by with_unfolding_all decide⟩

/-- C6 counterexample: the normalized Editex distance of A and AA at
the default cost tuple is 0, yet the two preprocessed strings differ,
so distance zero does not imply equality after preprocessing. -/
theorem dist_editex_zero_distinct :
    dist_editex "A" "AA" (0, 1, 2) false = Except.ok 0
    ∧ editexPrep "A" ≠ editexPrep "AA" := by
  refine ⟨by with_unfolding_all decide, by decide⟩

/-- C7 counterexample: the empty-versus-nonempty fast path of `editex`
multiplies the mismatch cost by the length of the preprocessed string,
not of the original: a single sharp s expands to SS and costs twice
the mismatch cost. -/
theorem editex_empty_side_prep_length :
    editex "" "ß" (0, 1, 2) false = 4
    ∧ ¬ ((("ß" : String).length : ℤ) * 2 = 4) := by
  refine ⟨by decide, by decide⟩

/-- C3 counterexample: a call whose every source/target comparison
pairs equal characters never consults the substitution cost, so an
unsupported character in both strings raises nothing and a result is
returned. -/
theorem typo_unsupported_no_error :
    typo id id "€" "€€" "euclidean" [1, 1, 1/2, 1/2] "QWERTY" = Except.ok 1
    ∧ supportedChar qwertyKb '€' = false := by
  constructor
  · have ht : ("€€" : String).toList = ['€', '€'] := rfl
    have hs : ("€" : String).toList = ['€'] := rfl
    have hl : ("€€" : String).length = 2 := rfl
    have e1 : ("€" : String) ≠ "€€" := by decide
    have e2 : ("€" : String) ≠ "" := by decide
    have e3 : ("€€" : String) ≠ "" := by decide
    norm_num [typo, kbs, rowsLoop, buildRow, rmin, Except.pure, Except.bind,
      pure, bind, List.range_succ, List.singleton, List.cons_append,
      List.nil_append, List.getLast?, ht, hs, hl, e1, e2, e3]
  · decide

end Abydos
